import Mathlib

/-!
Verification of the DnD-Card-Generator layout engine.

This development embeds, in Lean, the parts of the repository that the
correctness claims are about:

* the back-face row reordering (mix_array in src/export.py and
  src/CardGenerator.py);
* the ability-modifier formatting and the title-scaling computation of the
  monster content-block builder (MonsterCardLayout.fill_frames and
  MonsterCardLayout._get_title_paragraph in src/card_monster.py);
* the legendary-action entry loop of the same builder;
* the card-size escalation loop (CardGenerator.draw in src/generator.py and
  src/CardGenerator.py);
* the flow engine that fills text regions (CardLayout._draw_frames in
  src/card.py) together with the divider suppression behaviour of
  LineDivider (src/card.py).

Real-valued layout arithmetic is embedded over the rationals; the fallible
Python computations (a ZeroDivisionError on an empty title) are embedded as
Option-returning functions.  The text-region primitives that the flow engine
calls (Frame.add, Frame.split, Frame._atTop) belong to the external reportlab
collaborator; they are modelled from the region contract the repository relies
on: an add that either places a fully measured block or refuses without
mutation, a split that greedily takes the largest fitting prefix of a
paragraph's lines and returns null when not even one line fits, and an at-top
flag that is cleared by the first successful add.
-/

namespace DnD

/-! ### Back-face row reordering: mix_array
Faithful to mix_array in src/export.py lines 77-92 (identical copy in
src/CardGenerator.py lines 70-86): number of segments is
len // s plus one more when a remainder exists, each segment arr[i*s : min(i*s+s, len)]
is reversed, and the reversed segments are concatenated in order. -/

def numSegments (len segment_size : Nat) : Nat :=
  len / segment_size + (if len % segment_size ≠ 0 then 1 else 0)

def mix_array {α : Type} (arr : List α) (segment_size : Nat) : List α :=
  (List.range (numSegments arr.length segment_size)).flatMap
    (fun i => ((arr.drop (i * segment_size)).take segment_size).reverse)

/-- Spec-side description of the reordering ("reverses each consecutive
segment of s cards independently; the final segment may be shorter and is
also reversed"), written as structural recursion to be compared with
mix_array. -/
def segmentReversal {α : Type} (s : Nat) (l : List α) : List α :=
  match s, l with
  | _, [] => []
  | 0, _ :: _ => []
  | s + 1, a :: rest =>
      ((a :: rest).take (s + 1)).reverse ++
        segmentReversal (s + 1) ((a :: rest).drop (s + 1))
termination_by l.length
decreasing_by
  simp only [List.length_drop, List.length_cons]
  omega

/-! ### Ability-modifier formatting
Faithful to src/card_monster.py lines 158-162: a str passes through, an int m
becomes "%d (%+d)" % (m, math.floor((m - 10) / 2)).  Python's math.floor of
the true quotient is floor division, Int.fdiv; "%d" renders an integer with a
minus sign when negative, "%+d" always renders a sign. -/

inductive AbilityScore : Type
  | str (s : String)
  | int (n : Int)
deriving DecidableEq

def pyFmtD (n : Int) : String := toString n

def pyFmtPlusD (n : Int) : String :=
  if 0 ≤ n then "+" ++ toString n else toString n

def formatModifier : AbilityScore → String
  | .str s => s
  | .int m => pyFmtD m ++ " (" ++ pyFmtPlusD ((m - 10).fdiv 2) ++ ")"

/-! ### Title scaling (monster cards)
Faithful to src/card_monster.py lines 93-112 (fill_frames) and 288-303
(_get_title_paragraph).  The scale is min(1.0, 20 / len(title)) when the
layout is a SmallCard and 1.0 otherwise; Python raises ZeroDivisionError on an
empty title, embedded as none.  Geometry is exact rational arithmetic:
reportlab's mm unit is 72 / 25.4 points and the title style of fonts.py is
2.5 * mm scaled by FONT_SCALE = 1.41. -/

def mmUnit : ℚ := 360 / 127

def FONT_SCALE : ℚ := 141 / 100

def titleStyleFontSize : ℚ := 5 / 2 * mmUnit

def titleScale (isSmall : Bool) (titleLen : Nat) : Option ℚ :=
  if isSmall then
    if titleLen = 0 then none
    else some (min 1 (20 / (titleLen : ℚ)))
  else some 1

structure TitleBlock : Type where
  spacerHeight : ℚ
  fontSize : ℚ
  leading : ℚ
deriving DecidableEq

/-- Back-face title block built by fill_frames: font_size = original * scale,
spacer_height = (original - font_size + 0.5mm) / 2, leading = font_size +
spacer_height, and a Spacer of spacer_height precedes the paragraph. -/
def buildTitleBlock (isSmall : Bool) (titleLen : Nat) : Option TitleBlock :=
  (titleScale isSmall titleLen).map fun scale =>
    let original := titleStyleFontSize * FONT_SCALE
    let fontSize := original * scale
    let spacer := (original - fontSize + 1 / 2 * mmUnit) / 2
    ⟨spacer, fontSize, fontSize + spacer⟩

/-- Front-face title paragraph font size from _get_title_paragraph: the same
scale is applied, leading equals the font size, no spacer. -/
def frontTitleFontSize (isSmall : Bool) (titleLen : Nat) : Option ℚ :=
  (titleScale isSmall titleLen).map fun scale =>
    titleStyleFontSize * FONT_SCALE * scale

/-! ### Card-size escalation loop
Faithful to CardGenerator.draw in src/generator.py lines 29-44 (same loop in
src/CardGenerator.py lines 1057-1072): for (size, split) in
itertools.product(self.sizes, [False, True]) the layout is attempted; a
TemplateTooSmall attempt resets the canvas and the loop continues; the first
attempt that completes breaks; the for-else prints "Could not fit {title}".
The outcome of one attempt is abstracted as a predicate ok size split. -/

inductive CardSize : Type
  | small
  | large
  | epic
  | superEpic
deriving DecidableEq

def sizeRank : CardSize → Nat
  | .small => 0
  | .large => 1
  | .epic => 2
  | .superEpic => 3

def monsterSizes : List CardSize := [.small, .large, .epic, .superEpic]

def attemptPlan (sizes : List CardSize) : List (CardSize × Bool) :=
  sizes.flatMap fun s => [(s, false), (s, true)]

/-- Attempts actually executed by the loop: every failing attempt is followed
by the next one, the first succeeding attempt is the last executed. -/
def attemptsTried (ok : CardSize → Bool → Bool) :
    List (CardSize × Bool) → List (CardSize × Bool)
  | [] => []
  | a :: rest => a :: (if ok a.1 a.2 then [] else attemptsTried ok rest)

inductive DrawResult : Type
  | drawn (size : CardSize) (split : Bool)
  | logged (msg : String)
deriving DecidableEq

def drawLoop (ok : CardSize → Bool → Bool) (title : String) :
    List (CardSize × Bool) → DrawResult
  | [] => .logged ("Could not fit " ++ title)
  | a :: rest => if ok a.1 a.2 then .drawn a.1 a.2 else drawLoop ok title rest

def cardGeneratorDraw (ok : CardSize → Bool → Bool) (title : String)
    (sizes : List CardSize) : DrawResult :=
  drawLoop ok title (attemptPlan sizes)

def triedSizes (ok : CardSize → Bool → Bool) : List CardSize :=
  (attemptsTried ok (attemptPlan monsterSizes)).map Prod.fst

/-- Outcome predicate exhibiting a duplicated size attempt: the Small layout
overflows without splitting but succeeds once splitting is enabled. -/
def okSplitOnly : CardSize → Bool → Bool := fun s b => s = .small && b

/-! ### Legendary-action entries
Faithful to src/card_monster.py lines 260-286.  A plain str entry becomes a
text paragraph; a single-key dict entry becomes an italic-bold
"heading. body" paragraph in the legendary_action style; for any other entry
kind the source evaluates the expression
TypeError('Legendary action cannot be type ...') WITHOUT raising it, leaves
the local variable paragraph at its previous value, and appends that previous
paragraph again (a NameError occurs when no previous paragraph exists).  The
first appended element is wrapped with the section title in a KeepTogether. -/

inductive LegendaryEntry : Type
  | str (s : String)
  | dict (heading body : String)
  | other
deriving DecidableEq

structure LegPara : Type where
  text : String
  style : String
deriving DecidableEq

inductive LegElem : Type
  | para (p : LegPara)
  | keepTogether (title : String) (p : LegPara)
deriving DecidableEq

inductive PyOutcome (α : Type) : Type
  | ok (v : α)
  | nameError
deriving DecidableEq

def legendaryParagraph : LegendaryEntry → Option LegPara → Option LegPara
  | .str s, _ => some ⟨s, "text"⟩
  | .dict h b, _ => some ⟨"<i><b>" ++ h ++ ".</b></i> " ++ b, "legendary_action"⟩
  | .other, prev => prev

def legendaryLoop (titleText : String) :
    List LegendaryEntry → Option LegPara → Bool → List LegElem →
      PyOutcome (List LegElem)
  | [], _, _, acc => .ok acc
  | e :: rest, prev, first, acc =>
    match legendaryParagraph e prev with
    | none => .nameError
    | some p =>
      let elem := if first then LegElem.keepTogether titleText p else LegElem.para p
      legendaryLoop titleText rest (some p) false (acc ++ [elem])

def buildLegendary (entries : List LegendaryEntry) : PyOutcome (List LegElem) :=
  legendaryLoop "LEGENDARY ACTIONS" entries none true []

/-! ### Flow engine
Faithful to CardLayout._draw_frames in src/card.py lines 171-235 and to
LineDivider in src/card.py lines 477-510.  Content blocks:

* divider h — a LineDivider whose wrap height is h = line_height + spacing,
  except that inside a frame whose at-top flag is set its wrap height is 0
  and its draw paints nothing;
* para lines — a splittable paragraph, measured height the sum of its line
  heights;
* fixed h — an unsplittable flowable of measured height h (table, spacer,
  KeepTogether).

A Region is a text frame of the back face reduced to its remaining height
and its at-top flag.  regionAdd is the collaborator contract of Frame.add
(place the fully measured block when it fits the remaining height, clear the
at-top flag, otherwise refuse without mutation); regionSplit is the contract
of Frame.split for a paragraph (greedily take the largest prefix of lines
that fits, null when not even the first line fits, and unsplittable
flowables never split). -/

inductive Block : Type
  | divider (h : Nat)
  | para (lines : List Nat)
  | fixed (h : Nat)
deriving DecidableEq

def Block.wrapH : Block → Nat
  | .divider h => h
  | .para lines => lines.sum
  | .fixed h => h

def Block.isDivider : Block → Bool
  | .divider _ => true
  | .para _ => false
  | .fixed _ => false

def Block.wt : Block → Nat
  | .para lines => lines.length + 1
  | _ => 1

def queueWt (es : List Block) : Nat := (es.map Block.wt).sum

structure Region : Type where
  remaining : Nat
  atTop : Bool
deriving DecidableEq

def wrapIn (f : Region) : Block → Nat
  | .divider h => if f.atTop then 0 else h
  | .para lines => lines.sum
  | .fixed h => h

def regionAdd (f : Region) (b : Block) : Option Region :=
  if wrapIn f b ≤ f.remaining then some ⟨f.remaining - wrapIn f b, false⟩
  else none

/-- Greedy number of leading lines that fit the available height. -/
def splitLen (avail : Nat) : List Nat → Nat
  | [] => 0
  | l :: ls => if l ≤ avail then splitLen (avail - l) ls + 1 else 0

def regionSplit (f : Region) : Block → Option (Block × Block)
  | .para lines =>
    let k := splitLen f.remaining lines
    if k = 0 then none
    else some (.para (lines.take k), .para (lines.drop k))
  | _ => none

/-- Visible ink a successful add leaves at region index idx: a divider added
while the region is at its top draws nothing. -/
def placeRecord (idx : Nat) (f : Region) (b : Block) : List (Nat × Block) :=
  match b with
  | .divider _ => if f.atTop then [] else [(idx, b)]
  | .para _ => [(idx, b)]
  | .fixed _ => [(idx, b)]

structure FlowResult : Type where
  placed : List (Nat × Block)
  leftover : List Block
  framesLeft : Nat
deriving DecidableEq

def FlowResult.consPlaced (p : List (Nat × Block)) (r : FlowResult) : FlowResult :=
  ⟨p ++ r.placed, r.leftover, r.framesLeft⟩

theorem Block.wt_pos (b : Block) : 1 ≤ b.wt := by
  cases b <;> simp [Block.wt]

theorem splitLen_le_length (ls : List Nat) :
    ∀ avail, splitLen avail ls ≤ ls.length := by
  induction ls with
  | nil => intro avail; simp [splitLen]
  | cons l ls ih =>
    intro avail
    simp only [splitLen, List.length_cons]
    split
    · exact Nat.succ_le_succ (ih _)
    · omega

theorem regionSplit_wt {f : Region} {b : Block} {frs : Block × Block}
    (h : regionSplit f b = some frs) : frs.2.wt < b.wt := by
  cases b with
  | divider h0 => simp [regionSplit] at h
  | fixed h0 => simp [regionSplit] at h
  | para lines =>
    simp only [regionSplit] at h
    by_cases hk : splitLen f.remaining lines = 0
    · simp [hk] at h
    · simp only [hk, if_false, Option.some.injEq] at h
      have hle := splitLen_le_length lines f.remaining
      subst h
      simp only [Block.wt, List.length_drop]
      omega

/-- Outcome of one iteration of the while loop: halt with the leftover
queue and the count of never-produced frames, or continue with the visible
ink this iteration left and the next loop state. -/
inductive FlowStep : Type
  | halt (leftover : List Block) (framesLeft : Nat)
  | step (placed : List (Nat × Block)) (idx : Nat) (es : List Block)
      (cur : Region) (fs : List Region)
deriving DecidableEq

/-- The shared tail of the loop body (src/card.py lines 213-231): try
current_frame.add; on failure try current_frame.split when split mode is on,
committing the first returned fragment (result ignored) and prepending the
residual fragment to elements; otherwise put the element back and advance
the frame iterator, breaking out when it is exhausted. -/
def addStep (split : Bool) (idx : Nat) (e : Block) (rest : List Block)
    (cur : Region) (fs : List Region) : FlowStep :=
  match regionAdd cur e with
  | some f1 => .step (placeRecord idx cur e) idx rest f1 fs
  | none =>
    match (if split then regionSplit cur e else none) with
    | some frs =>
      .step
        (if (regionAdd cur frs.1).isSome then placeRecord idx cur frs.1
         else [])
        idx (frs.2 :: rest) ((regionAdd cur frs.1).getD cur) fs
    | none =>
      match fs with
      | [] => .halt (e :: rest) 0
      | g :: gs => .step [] (idx + 1) (e :: rest) g gs

/-- One iteration of the while loop of _draw_frames (src/card.py lines
189-231): pop the head element; a LineDivider is dropped when nothing
follows it (breaking with the queue already empty) or when the line plus the
next element's measured height exceeds the remaining height; otherwise the
shared add/split/advance tail runs. -/
def flowStep (split : Bool) (idx : Nat) (es : List Block) (cur : Region)
    (fs : List Region) : FlowStep :=
  match es with
  | [] => .halt [] fs.length
  | [.divider _] => .halt [] fs.length
  | .divider h :: r :: rtail =>
    if cur.remaining < h + r.wrapH then .step [] idx (r :: rtail) cur fs
    else addStep split idx (.divider h) (r :: rtail) cur fs
  | e :: rest => addStep split idx e rest cur fs

theorem addStep_decreases {split : Bool} {idx : Nat} {e : Block}
    {rest : List Block} {cur : Region} {fs : List Region}
    {p : List (Nat × Block)} {idx1 : Nat} {es1 : List Block} {cur1 : Region}
    {fs1 : List Region}
    (h : addStep split idx e rest cur fs = .step p idx1 es1 cur1 fs1) :
    Prod.Lex (· < ·) (· < ·) (fs1.length, queueWt es1)
      (fs.length, queueWt (e :: rest)) := by
  rw [addStep.eq_def] at h
  cases hadd : regionAdd cur e with
  | some f1 =>
    rw [hadd] at h
    cases h
    apply Prod.Lex.right
    have := Block.wt_pos e
    simp only [queueWt, List.map_cons, List.sum_cons]
    omega
  | none =>
    rw [hadd] at h
    cases hsp : (if split then regionSplit cur e else none) with
    | some frs =>
      rw [hsp] at h
      cases h
      apply Prod.Lex.right
      have hsome : regionSplit cur e = some frs := by
        cases split
        · simp at hsp
        · simpa using hsp
      have := regionSplit_wt hsome
      simp only [queueWt, List.map_cons, List.sum_cons]
      omega
    | none =>
      rw [hsp] at h
      cases fs with
      | nil => cases h
      | cons g gs =>
        cases h
        apply Prod.Lex.left
        simp

theorem flowStep_decreases {split : Bool} {idx : Nat} {es : List Block}
    {cur : Region} {fs : List Region} {p : List (Nat × Block)} {idx1 : Nat}
    {es1 : List Block} {cur1 : Region} {fs1 : List Region}
    (h : flowStep split idx es cur fs = .step p idx1 es1 cur1 fs1) :
    Prod.Lex (· < ·) (· < ·) (fs1.length, queueWt es1)
      (fs.length, queueWt es) := by
  match es with
  | [] => simp [flowStep] at h
  | [.divider h0] => simp [flowStep] at h
  | .divider h0 :: r :: rtail =>
    simp only [flowStep] at h
    by_cases hlt : cur.remaining < h0 + r.wrapH
    · rw [if_pos hlt] at h
      cases h
      apply Prod.Lex.right
      simp only [queueWt, List.map_cons, List.sum_cons, Block.wt]
      omega
    · rw [if_neg hlt] at h
      exact addStep_decreases h
  | .para lines :: rest =>
    simp only [flowStep] at h
    exact addStep_decreases h
  | .fixed h0 :: rest =>
    simp only [flowStep] at h
    exact addStep_decreases h

/-- The while loop of _draw_frames.  idx numbers the current region, cur is
the current frame, fs the frames the iterator has not yet produced.  leftover
is self.elements at loop exit (TemplateTooSmall is raised exactly when it is
non-empty) and framesLeft the number of frames the iterator never produced. -/
def drawFrames (split : Bool) (idx : Nat) (es : List Block) (cur : Region)
    (fs : List Region) : FlowResult :=
  match hstep : flowStep split idx es cur fs with
  | .halt leftover fl => ⟨[], leftover, fl⟩
  | .step p idx1 es1 cur1 fs1 =>
    (drawFrames split idx1 es1 cur1 fs1).consPlaced p
termination_by (fs.length, queueWt es)
decreasing_by
exact flowStep_decreases hstep

/-! ## Theorems -/

/-! ### mix_array agrees with per-segment reversal (claims C6 and C9) -/

theorem numSegments_nil (s : Nat) : numSegments 0 s = 0 := by
  simp [numSegments, Nat.zero_mod]

theorem numSegments_step {len s : Nat} (hs : 0 < s) (hlen : 0 < len) :
    numSegments len s = numSegments (len - s) s + 1 := by
  rcases le_or_lt s len with hle | hlt
  · obtain ⟨t, rfl⟩ := Nat.exists_eq_add_of_le hle
    have h1 : (s + t) / s = t / s + 1 := by
      rw [Nat.add_comm s t]
      exact Nat.add_div_right t hs
    have h2 : (s + t) % s = t % s := Nat.add_mod_left s t
    simp only [numSegments, h1, h2, Nat.add_sub_cancel_left]
    omega
  · have h1 : len / s = 0 := Nat.div_eq_of_lt hlt
    have h2 : len % s = len := Nat.mod_eq_of_lt hlt
    have h3 : len - s = 0 := by omega
    have hne : len ≠ 0 := by omega
    rw [h3, numSegments_nil]
    simp [numSegments, h1, h2, hne]

theorem mix_array_nil {α : Type} (s : Nat) : mix_array ([] : List α) s = [] := by
  simp [mix_array, numSegments_nil]

theorem mix_array_cons {α : Type} {s : Nat} (hs : 0 < s) (a : α) (l : List α) :
    mix_array (a :: l) s =
      ((a :: l).take s).reverse ++ mix_array ((a :: l).drop s) s := by
  have hlen : 0 < (a :: l).length := by simp
  have hstep := @numSegments_step (a :: l).length s hs hlen
  have hdlen : ((a :: l).drop s).length = (a :: l).length - s := by
    simp [List.length_drop]
  simp only [mix_array, hstep, ← hdlen, List.range_succ_eq_map,
    List.flatMap_cons, List.flatMap_map]
  congr 1
  · simp
  · apply List.flatMap_congr
    intro i _
    have : ((a :: l).drop (Nat.succ i * s)) = ((a :: l).drop s).drop (i * s) := by
      rw [List.drop_drop]
      congr 1
      simp only [Nat.succ_eq_add_one]
      ring
    rw [this]

theorem segmentReversal_cons {α : Type} (s : Nat) (a : α) (l : List α) :
    segmentReversal (s + 1) (a :: l) =
      ((a :: l).take (s + 1)).reverse ++
        segmentReversal (s + 1) ((a :: l).drop (s + 1)) := by
  rw [segmentReversal]

theorem segmentReversal_ne_nil_eq {α : Type} (s : Nat) (l : List α)
    (hne : l ≠ []) :
    segmentReversal (s + 1) l =
      (l.take (s + 1)).reverse ++ segmentReversal (s + 1) (l.drop (s + 1)) := by
  cases l with
  | nil => simp at hne
  | cons a rest => rw [segmentReversal_cons]

theorem mix_array_eq_segmentReversal {α : Type} {s : Nat} (hs : 0 < s)
    (arr : List α) : mix_array arr s = segmentReversal s arr := by
  obtain ⟨t, rfl⟩ : ∃ t, s = t + 1 := ⟨s - 1, by omega⟩
  have main : ∀ n (l : List α), l.length ≤ n →
      mix_array l (t + 1) = segmentReversal (t + 1) l := by
    intro n
    induction n with
    | zero =>
      intro l hl
      have : l = [] := List.length_eq_zero.mp (Nat.le_zero.mp hl)
      subst this
      simp [mix_array_nil, segmentReversal]
    | succ n ih =>
      intro l hl
      cases l with
      | nil => simp [mix_array_nil, segmentReversal]
      | cons a rest =>
        rw [mix_array_cons hs, segmentReversal_cons]
        congr 1
        apply ih
        simp only [List.length_drop, List.length_cons] at *
        omega
  exact main arr.length arr le_rfl

theorem segmentReversal_perm {α : Type} {s : Nat} (hs : 0 < s) (arr : List α) :
    (segmentReversal s arr).Perm arr := by
  obtain ⟨t, rfl⟩ : ∃ t, s = t + 1 := ⟨s - 1, by omega⟩
  have main : ∀ n (l : List α), l.length ≤ n →
      (segmentReversal (t + 1) l).Perm l := by
    intro n
    induction n with
    | zero =>
      intro l hl
      have : l = [] := List.length_eq_zero.mp (Nat.le_zero.mp hl)
      subst this
      simp [segmentReversal]
    | succ n ih =>
      intro l hl
      cases l with
      | nil => simp [segmentReversal]
      | cons a rest =>
        rw [segmentReversal_cons]
        have h1 : ((a :: rest).take (t + 1)).reverse.Perm ((a :: rest).take (t + 1)) :=
          List.reverse_perm _
        have h2 : (segmentReversal (t + 1) ((a :: rest).drop (t + 1))).Perm
            ((a :: rest).drop (t + 1)) := by
          apply ih
          simp only [List.length_drop, List.length_cons] at *
          omega
        have h3 := List.Perm.append h1 h2
        rwa [List.take_append_drop] at h3
  exact main arr.length arr le_rfl

theorem segmentReversal_invol {α : Type} {s : Nat} (hs : 0 < s) (arr : List α) :
    segmentReversal s (segmentReversal s arr) = arr := by
  obtain ⟨t, rfl⟩ : ∃ t, s = t + 1 := ⟨s - 1, by omega⟩
  have main : ∀ n (l : List α), l.length ≤ n →
      segmentReversal (t + 1) (segmentReversal (t + 1) l) = l := by
    intro n
    induction n with
    | zero =>
      intro l hl
      have : l = [] := List.length_eq_zero.mp (Nat.le_zero.mp hl)
      subst this
      simp [segmentReversal]
    | succ n ih =>
      intro l hl
      cases l with
      | nil => simp [segmentReversal]
      | cons a rest =>
        rw [segmentReversal_cons]
        have hnil : segmentReversal (t + 1) ([] : List α) = [] := by
          simp [segmentReversal]
        rcases le_or_lt (a :: rest).length (t + 1) with hle | hlt
        · rw [List.drop_eq_nil_of_le hle, List.take_of_length_le hle, hnil,
            List.append_nil]
          have hrl : ((a :: rest).reverse).length ≤ t + 1 := by simpa using hle
          have hrne : (a :: rest).reverse ≠ [] := by simp
          rw [segmentReversal_ne_nil_eq _ _ hrne, List.drop_eq_nil_of_le hrl,
            List.take_of_length_le hrl, hnil, List.append_nil,
            List.reverse_reverse]
        · have htake : ((a :: rest).take (t + 1)).length = t + 1 := by
            rw [List.length_take]
            omega
          have hxrev : (((a :: rest).take (t + 1)).reverse).length = t + 1 := by
            simpa using htake
          have hTake : (((a :: rest).take (t + 1)).reverse ++
              segmentReversal (t + 1) ((a :: rest).drop (t + 1))).take (t + 1) =
              ((a :: rest).take (t + 1)).reverse := List.take_left' hxrev
          have hDrop : (((a :: rest).take (t + 1)).reverse ++
              segmentReversal (t + 1) ((a :: rest).drop (t + 1))).drop (t + 1) =
              segmentReversal (t + 1) ((a :: rest).drop (t + 1)) :=
            List.drop_left' hxrev
          have hne2 : ((a :: rest).take (t + 1)).reverse ++
              segmentReversal (t + 1) ((a :: rest).drop (t + 1)) ≠ [] := by
            intro hcon
            have hlen0 := congrArg List.length hcon
            simp only [List.length_append, hxrev, List.length_nil] at hlen0
            omega
          rw [segmentReversal_ne_nil_eq _ _ hne2, hTake, hDrop,
            List.reverse_reverse]
          have hih : segmentReversal (t + 1)
              (segmentReversal (t + 1) ((a :: rest).drop (t + 1))) =
              (a :: rest).drop (t + 1) := by
            apply ih
            have hdl : ((a :: rest).drop (t + 1)).length =
                (a :: rest).length - (t + 1) := List.length_drop _ _
            have hcl : (a :: rest).length = rest.length + 1 :=
              List.length_cons _ _
            omega
          rw [hih, List.take_append_drop]
  exact main _ _ le_rfl

/-- Claim C6: for every list of cards and row size s, the back-face
reordering mix_array reverses each consecutive s-sized segment independently
(the final, possibly shorter, segment is also reversed); in particular with
3 cards per row the front order A,B,C,D,E,F yields back order C,B,A,F,E,D. -/
theorem c6_mix_array_segment_reversal :
    (∀ (α : Type) (arr : List α) (s : Nat), 0 < s →
        mix_array arr s = segmentReversal s arr) ∧
      mix_array ["A", "B", "C", "D", "E", "F"] 3 =
        ["C", "B", "A", "F", "E", "D"] := by
  constructor
  · intro α arr s hs
    exact mix_array_eq_segmentReversal hs arr
  · rfl

/-- Witness for C6: the general part instantiated at a concrete list and
segment size. -/
theorem c6_mix_array_segment_reversal_witness :
    mix_array [10, 20, 30, 40, 50] 2 = segmentReversal 2 [10, 20, 30, 40, 50] :=
  c6_mix_array_segment_reversal.1 Nat [10, 20, 30, 40, 50] 2 (by decide)

/-- Claim C9 (implicit): for every list and every positive segment size, the
segment-reversal reordering is a permutation of the input, preserves its
length, and is an involution: applying it twice returns the original list. -/
theorem c9_mix_array_involution {α : Type} (arr : List α) (s : Nat)
    (hs : 0 < s) :
    (mix_array arr s).Perm arr ∧ (mix_array arr s).length = arr.length ∧
      mix_array (mix_array arr s) s = arr := by
  have hperm : (mix_array arr s).Perm arr := by
    rw [mix_array_eq_segmentReversal hs]
    exact segmentReversal_perm hs arr
  refine ⟨hperm, hperm.length_eq, ?_⟩
  rw [mix_array_eq_segmentReversal hs, mix_array_eq_segmentReversal hs]
  exact segmentReversal_invol hs arr

/-- Witness for C9 at a concrete list and segment size. -/
theorem c9_mix_array_involution_witness :
    (mix_array [1, 2, 3, 4, 5] 3).Perm [1, 2, 3, 4, 5] ∧
      (mix_array [1, 2, 3, 4, 5] 3).length = ([1, 2, 3, 4, 5] : List Nat).length ∧
      mix_array (mix_array [1, 2, 3, 4, 5] 3) 3 = [1, 2, 3, 4, 5] :=
  c9_mix_array_involution [1, 2, 3, 4, 5] 3 (by decide)

/-! ### Ability-modifier formatting (claim C5) -/

/-- Claim C5: an integer ability score n is rendered as "n (+m)" or "n (-m)"
with signed modifier m = floor((n - 10) / 2) — 13 becomes "13 (+1)", 10
becomes "10 (+0)", 8 becomes "8 (-1)" — and a string score passes through
unchanged. -/
theorem c5_modifier_formatting :
    formatModifier (.int 13) = "13 (+1)" ∧
      formatModifier (.int 10) = "10 (+0)" ∧
      formatModifier (.int 8) = "8 (-1)" ∧
      (∀ s, formatModifier (.str s) = s) ∧
      (∀ n : Int, formatModifier (.int n) =
        toString n ++ " (" ++
          (if 0 ≤ (n - 10).fdiv 2 then "+" ++ toString ((n - 10).fdiv 2)
           else toString ((n - 10).fdiv 2)) ++ ")") := by
  refine ⟨by decide, by decide, by decide, fun s => rfl, fun n => rfl⟩

/-! ### Title scaling (claims C7 and C10) -/

/-- Claim C7: at the Small variant the monster title font is scaled by
min(1, 20/length) — a 30-character title by 20/30, a 15-character title not
at all — the scaling applies only to the Small variant, and the compensating
spacer makes spacer height plus leading equal to the unscaled total
original + 0.5mm for every title length and variant. -/
theorem c7_title_scaling :
    titleScale true 30 = some (20 / 30) ∧
      titleScale true 15 = some 1 ∧
      (∀ n, titleScale false n = some 1) ∧
      (∀ n, 0 < n → titleScale true n = some (min 1 (20 / (n : ℚ)))) ∧
      (∀ (isSmall : Bool) (n : Nat) (tb : TitleBlock),
        buildTitleBlock isSmall n = some tb →
          tb.spacerHeight + tb.leading =
            titleStyleFontSize * FONT_SCALE + 1 / 2 * mmUnit) := by
  refine ⟨?_, ?_, fun n => rfl, fun n hn => ?_, ?_⟩
  · rw [titleScale]
    norm_num
  · rw [titleScale]
    norm_num
  · rw [titleScale]
    simp [hn.ne']
  · intro isSmall n tb htb
    rw [buildTitleBlock, Option.map_eq_some'] at htb
    obtain ⟨scale, -, htb⟩ := htb
    subst htb
    simp only [TitleBlock.spacerHeight, TitleBlock.leading]
    ring

/-- Witness for C7: the scale claims and the height identity instantiated at
a 30-character Small-variant title. -/
theorem c7_title_scaling_witness :
    ((buildTitleBlock true 30).map fun tb => tb.spacerHeight + tb.leading) =
      some (titleStyleFontSize * FONT_SCALE + 1 / 2 * mmUnit) := by
  have h := c7_title_scaling.2.2.2.2 true 30 _ rfl
  rw [show buildTitleBlock true 30 = some _ from rfl, Option.map_some', h]

/-- Claim C10 (implicit): a non-empty title is an unstated precondition of
rendering a monster at the Small variant: with an empty title both the
back-face title block of fill_frames and the front-face title paragraph of
_get_title_paragraph evaluate 20 / 0 and fail with ZeroDivisionError
(embedded as none), while every positive length, and every length at a
non-Small variant, produces a layout. -/
theorem c10_empty_title_division :
    buildTitleBlock true 0 = none ∧
      frontTitleFontSize true 0 = none ∧
      (∀ n, 0 < n →
        (buildTitleBlock true n).isSome ∧ (frontTitleFontSize true n).isSome) ∧
      (∀ n, (buildTitleBlock false n).isSome ∧
        (frontTitleFontSize false n).isSome) := by
  refine ⟨rfl, rfl, fun n hn => ?_, fun n => ?_⟩
  · constructor <;> simp [buildTitleBlock, frontTitleFontSize, titleScale, hn.ne']
  · constructor <;> simp [buildTitleBlock, frontTitleFontSize, titleScale]

/-- Witness for C10 at title length 1. -/
theorem c10_empty_title_division_witness :
    (buildTitleBlock true 1).isSome ∧ (frontTitleFontSize true 1).isSome :=
  c10_empty_title_division.2.2.1 1 (by decide)

/-! ### The escalation loop logs and continues on total overflow (claim C8) -/

/-- Claim C8: when every (size, split) attempt overflows, CardGenerator.draw
terminates normally (the TemplateTooSmall of each attempt is caught inside
the loop) and reports the failure by logging a message containing the
entity's title, so later entities keep rendering. -/
theorem c8_overflow_logged (ok : CardSize → Bool → Bool) (title : String)
    (hall : ∀ s b, ok s b = false) :
    cardGeneratorDraw ok title monsterSizes =
      .logged ("Could not fit " ++ title) := by
  simp [cardGeneratorDraw, attemptPlan, monsterSizes, drawLoop, hall]

/-- Witness for C8: every attempt of a concrete entity fails. -/
theorem c8_overflow_logged_witness :
    cardGeneratorDraw (fun _ _ => false) "Goblin" monsterSizes =
      .logged ("Could not fit " ++ "Goblin") :=
  c8_overflow_logged (fun _ _ => false) "Goblin" (fun _ _ => rfl)

/-! ### Legendary-action entries of unsupported kind (claim C4) -/

/-- Claim C4 evaluated on the code: for the legendary list containing the
plain string "Claw attack" followed by an entry of unsupported kind, the
builder returns normally — the TypeError the source constructs is never
raised — and appends the previous entry's paragraph a second time; only when
the unsupported entry comes first does the run abort, and then with a
NameError on the unbound local paragraph, not the documented TypeError. -/
theorem c4_legendary_missing_raise :
    buildLegendary [.str "Claw attack", .other] =
      .ok [.keepTogether "LEGENDARY ACTIONS" ⟨"Claw attack", "text"⟩,
        .para ⟨"Claw attack", "text"⟩] ∧
      buildLegendary [.other] = .nameError := by
  exact ⟨rfl, rfl⟩

/-! ### Size escalation order (claim C1) -/

theorem attemptsTried_sublist (ok : CardSize → Bool → Bool) :
    ∀ l, (attemptsTried ok l).Sublist l := by
  intro l
  induction l with
  | nil => simp [attemptsTried]
  | cons x rest ih =>
    rw [attemptsTried]
    by_cases hx : ok x.1 x.2 = true
    · simp only [hx, if_true]
      exact (List.nil_sublist rest).cons₂ x
    · simp only [hx, if_false]
      exact ih.cons₂ x

theorem attemptsTried_eq_nil (ok : CardSize → Bool → Bool) (l : List (CardSize × Bool)) :
    attemptsTried ok l = [] ↔ l = [] := by
  cases l <;> simp [attemptsTried]

theorem attemptsTried_dropLast_fail (ok : CardSize → Bool → Bool) :
    ∀ l, ∀ a ∈ (attemptsTried ok l).dropLast, ok a.1 a.2 = false := by
  intro l
  induction l with
  | nil => simp [attemptsTried]
  | cons x rest ih =>
    intro a ha
    by_cases hx : ok x.1 x.2 = true
    · simp [attemptsTried, hx] at ha
    · rw [attemptsTried, if_neg hx] at ha
      cases htr : attemptsTried ok rest with
      | nil => simp [htr] at ha
      | cons y ys =>
        rw [htr, List.dropLast_cons₂, List.mem_cons] at ha
        rcases ha with rfl | ha
        · exact Bool.eq_false_iff.mpr hx
        · exact ih a (htr ▸ ha)

theorem attemptsTried_last_ok (ok : CardSize → Bool → Bool) :
    ∀ l rest a, attemptsTried ok l = rest ++ [a] →
      (attemptsTried ok l).length < l.length → ok a.1 a.2 = true := by
  intro l
  induction l with
  | nil =>
    intro rest a h hlen
    simp [attemptsTried] at hlen
  | cons x xs ih =>
    intro rest a h hlen
    by_cases hx : ok x.1 x.2 = true
    · rw [attemptsTried] at h
      simp only [hx, if_true] at h
      cases rest with
      | nil =>
        simp only [List.nil_append, List.cons.injEq] at h
        rw [← h.1]
        exact hx
      | cons r rs =>
        simp only [List.cons_append, List.cons.injEq] at h
        have := congrArg List.length h.2
        simp at this
    · rw [attemptsTried, if_neg hx] at h
      rw [attemptsTried, if_neg hx] at hlen
      cases rest with
      | nil =>
        simp only [List.nil_append, List.cons.injEq] at h
        have hnil : attemptsTried ok xs = [] := h.2
        have hxs : xs = [] := (attemptsTried_eq_nil ok xs).mp hnil
        subst hxs
        simp [attemptsTried] at hlen
      | cons r rs =>
        simp only [List.cons_append, List.cons.injEq] at h
        apply ih rs a h.2
        simp only [List.length_cons] at hlen
        omega

/-- Counterexample to C1 as stated: with an outcome where the Small layout
overflows when splitting is disabled but fits once splitting is enabled, the
loop over itertools.product(sizes, [False, True]) attempts the Small size
twice, so the tried sizes are not duplicate-free. -/
theorem c1_counterexample :
    triedSizes okSplitOnly = [.small, .small] ∧
      ¬ (triedSizes okSplitOnly).Nodup := by
  exact ⟨rfl, by decide⟩

/-- Claim C1 amended: the selector iterates (size, split) pairs with sizes
in ascending order and split disabled-then-enabled per size, so the tried
sizes are monotonically non-decreasing — never a smaller size after a larger
one — each size variant is attempted at most twice (once per split mode,
not at most once as claimed), every attempt before the last one overflows,
and the loop stops at the first attempt that completes: if it stops before
exhausting the plan, the last attempt succeeded. -/
theorem c1_escalation_monotonic (ok : CardSize → Bool → Bool) :
    ((attemptsTried ok (attemptPlan monsterSizes)).map
        fun a => sizeRank a.1).Pairwise (· ≤ ·) ∧
      (∀ s : CardSize, (triedSizes ok).count s ≤ 2) ∧
      (∀ a ∈ (attemptsTried ok (attemptPlan monsterSizes)).dropLast,
        ok a.1 a.2 = false) ∧
      (∀ rest a, attemptsTried ok (attemptPlan monsterSizes) = rest ++ [a] →
        rest.length + 1 < (attemptPlan monsterSizes).length →
        ok a.1 a.2 = true) := by
  have hsub := attemptsTried_sublist ok (attemptPlan monsterSizes)
  refine ⟨?_, ?_, attemptsTried_dropLast_fail ok _, ?_⟩
  · have hplan : ((attemptPlan monsterSizes).map
        fun a => sizeRank a.1).Pairwise (· ≤ ·) := by decide
    exact List.Pairwise.sublist (hsub.map _) hplan
  · intro s
    have h1 : (triedSizes ok).count s ≤
        ((attemptPlan monsterSizes).map Prod.fst).count s :=
      (hsub.map Prod.fst).count_le s
    have h2 : ((attemptPlan monsterSizes).map Prod.fst).count s ≤ 2 := by
      cases s <;> decide
    omega
  · intro rest a h hlen
    apply attemptsTried_last_ok ok _ rest a h
    rw [h]
    simp only [List.length_append, List.length_cons, List.length_nil]
    omega

/-- Witness for C1's amended claim: its stopping conjunct instantiated at
the okSplitOnly outcome, whose tried list is the two Small attempts. -/
theorem c1_escalation_monotonic_witness :
    okSplitOnly CardSize.small true = true :=
  (c1_escalation_monotonic okSplitOnly).2.2.2 [(CardSize.small, false)]
    (CardSize.small, true) rfl (by decide)

/-! ### Flow-engine step lemmas (claims C2 and C3) -/

theorem drawFrames_halt {split : Bool} {idx : Nat} {es : List Block}
    {cur : Region} {fs : List Region} {l : List Block} {fl : Nat}
    (h : flowStep split idx es cur fs = .halt l fl) :
    drawFrames split idx es cur fs = ⟨[], l, fl⟩ := by
  rw [drawFrames]
  split
  · rename_i l1 fl1 heq
    rw [h] at heq
    cases heq
    rfl
  · rename_i p idx1 es1 cur1 fs1 heq
    rw [h] at heq
    cases heq

theorem drawFrames_step {split : Bool} {idx : Nat} {es : List Block}
    {cur : Region} {fs : List Region} {p : List (Nat × Block)} {idx1 : Nat}
    {es1 : List Block} {cur1 : Region} {fs1 : List Region}
    (h : flowStep split idx es cur fs = .step p idx1 es1 cur1 fs1) :
    drawFrames split idx es cur fs =
      (drawFrames split idx1 es1 cur1 fs1).consPlaced p := by
  rw [drawFrames]
  split
  · rename_i l1 fl1 heq
    rw [h] at heq
    cases heq
  · rename_i p1 idx2 es2 cur2 fs2 heq
    rw [h] at heq
    cases heq
    rfl

/-! Greedy-split facts: the fragment chosen by regionSplit fits the
remaining height, and after committing it neither the residual nor any
further split of the residual fits what is left of the region. -/

theorem sum_take_splitLen_le (ls : List Nat) :
    ∀ avail, (ls.take (splitLen avail ls)).sum ≤ avail := by
  induction ls with
  | nil => intro avail; simp [splitLen]
  | cons l ls ih =>
    intro avail
    rw [splitLen]
    by_cases hl : l ≤ avail
    · rw [if_pos hl]
      simp only [List.take_succ_cons, List.sum_cons]
      have := ih (avail - l)
      omega
    · rw [if_neg hl]
      simp

theorem splitLen_drop_zero (ls : List Nat) :
    ∀ avail, avail < ls.sum →
      splitLen (avail - (ls.take (splitLen avail ls)).sum)
        (ls.drop (splitLen avail ls)) = 0 := by
  induction ls with
  | nil => intro avail hs; simp at hs
  | cons l ls ih =>
    intro avail hs
    rw [splitLen]
    by_cases hl : l ≤ avail
    · rw [if_pos hl]
      simp only [List.take_succ_cons, List.sum_cons, List.drop_succ_cons]
      have hrec := ih (avail - l)
      have hsub : avail - (l + (ls.take (splitLen (avail - l) ls)).sum) =
          avail - l - (ls.take (splitLen (avail - l) ls)).sum := by omega
      rw [hsub]
      apply hrec
      simp only [List.sum_cons] at hs
      omega
    · rw [if_neg hl]
      simp only [List.take_zero, List.sum_nil, Nat.sub_zero, List.drop_zero,
        splitLen]
      rw [if_neg hl]

theorem sum_drop_splitLen_gt (ls : List Nat) (avail : Nat)
    (hs : avail < ls.sum) :
    avail - (ls.take (splitLen avail ls)).sum <
      (ls.drop (splitLen avail ls)).sum := by
  have h1 := sum_take_splitLen_le ls avail
  have h2 : (ls.take (splitLen avail ls)).sum +
      (ls.drop (splitLen avail ls)).sum = ls.sum :=
    List.sum_take_add_sum_drop ls _
  omega

theorem consPlaced_nil (r : FlowResult) : r.consPlaced [] = r := rfl

theorem consPlaced_consPlaced (p q : List (Nat × Block)) (r : FlowResult) :
    (r.consPlaced q).consPlaced p = r.consPlaced (p ++ q) := by
  simp [FlowResult.consPlaced, List.append_assoc]

/-- Claim C3: a divider at the head of the pending queue is discarded —
occupies no space in the rendered output — exactly when (a) the region is
still at its top, (b) it is the last item of the queue, or (c) its own
height plus the next pending block's measured height exceeds the region's
remaining height.  The three conjuncts give the loop's behaviour in each
situation: with (b) the loop halts with the divider dropped and the queue
drained; with (c) (and the queue non-empty) the divider is dropped and
processing continues unchanged; otherwise the divider is added — consuming
height h and leaving visible ink exactly when the region was not at its top,
so that under (a) it consumes no height and draws nothing. -/
theorem c3_divider_suppression (split : Bool) (idx h : Nat)
    (rest : List Block) (cur : Region) (fs : List Region) :
    (rest = [] →
      drawFrames split idx (.divider h :: rest) cur fs = ⟨[], [], fs.length⟩) ∧
      (∀ r rtail, rest = r :: rtail → cur.remaining < h + r.wrapH →
        drawFrames split idx (.divider h :: rest) cur fs =
          drawFrames split idx rest cur fs) ∧
      (∀ r rtail, rest = r :: rtail → ¬ cur.remaining < h + r.wrapH →
        drawFrames split idx (.divider h :: rest) cur fs =
          (drawFrames split idx rest
              ⟨cur.remaining - (if cur.atTop then 0 else h), false⟩
              fs).consPlaced
            (if cur.atTop then [] else [(idx, .divider h)])) := by
  refine ⟨?_, ?_, ?_⟩
  · rintro rfl
    apply drawFrames_halt
    simp [flowStep]
  · rintro r rtail rfl hlt
    have hstep : flowStep split idx (.divider h :: r :: rtail) cur fs =
        .step [] idx (r :: rtail) cur fs := by
      simp [flowStep, if_pos hlt]
    rw [drawFrames_step hstep, consPlaced_nil]
  · rintro r rtail rfl hlt
    have hadd : regionAdd cur (.divider h) =
        some ⟨cur.remaining - (if cur.atTop then 0 else h), false⟩ := by
      rw [regionAdd]
      have hin : wrapIn cur (.divider h) = if cur.atTop then 0 else h := by
        rw [wrapIn]
      rw [hin]
      rw [if_pos]
      by_cases hat : cur.atTop
      · rw [if_pos hat]
        omega
      · rw [if_neg hat]
        omega
    have hstep : flowStep split idx (.divider h :: r :: rtail) cur fs =
        .step (placeRecord idx cur (.divider h)) idx (r :: rtail)
          ⟨cur.remaining - (if cur.atTop then 0 else h), false⟩ fs := by
      rw [flowStep, if_neg hlt, addStep.eq_def, hadd]
    rw [drawFrames_step hstep]
    congr 1

/-- Witness for C3: a divider that is neither at the top of its region nor
last nor short of space is placed and consumes its height. -/
theorem c3_divider_suppression_witness :
    drawFrames false 0 [.divider 2, .fixed 3] ⟨10, false⟩ [] =
      (drawFrames false 0 [.fixed 3]
          ⟨(10 : Nat) - (if (false : Bool) then 0 else 2), false⟩ []).consPlaced
        (if (false : Bool) then [] else [(0, .divider 2)]) :=
  (c3_divider_suppression false 0 2 [.fixed 3] ⟨10, false⟩ []).2.2
    (.fixed 3) [] rfl (by decide)

theorem addStep_halt {split : Bool} {idx : Nat} {e : Block}
    {rest : List Block} {cur : Region} {fs : List Region} {l : List Block}
    {fl : Nat} (h : addStep split idx e rest cur fs = .halt l fl) :
    l = e :: rest ∧ fl = 0 ∧ fs = [] := by
  rw [addStep.eq_def] at h
  cases hadd : regionAdd cur e with
  | some f1 => rw [hadd] at h; cases h
  | none =>
    rw [hadd] at h
    cases hsp : (if split then regionSplit cur e else none) with
    | some frs => rw [hsp] at h; cases h
    | none =>
      rw [hsp] at h
      cases fs with
      | nil =>
        cases h
        exact ⟨rfl, rfl, rfl⟩
      | cons g gs => cases h

theorem flowStep_halt_char {split : Bool} {idx : Nat} {es : List Block}
    {cur : Region} {fs : List Region} {l : List Block} {fl : Nat}
    (h : flowStep split idx es cur fs = .halt l fl) :
    l = [] ∨ fl = 0 := by
  match es with
  | [] =>
    simp only [flowStep] at h
    cases h
    exact Or.inl rfl
  | [.divider h0] =>
    simp only [flowStep] at h
    cases h
    exact Or.inl rfl
  | .divider h0 :: r :: rtail =>
    simp only [flowStep] at h
    by_cases hlt : cur.remaining < h0 + r.wrapH
    · rw [if_pos hlt] at h
      cases h
    · rw [if_neg hlt] at h
      exact Or.inr (addStep_halt h).2.1
  | .para lines :: rest =>
    simp only [flowStep] at h
    exact Or.inr (addStep_halt h).2.1
  | .fixed h0 :: rest =>
    simp only [flowStep] at h
    exact Or.inr (addStep_halt h).2.1

theorem drawFrames_fail_framesLeft (split : Bool) (idx : Nat)
    (es : List Block) (cur : Region) (fs : List Region) :
    (drawFrames split idx es cur fs).leftover ≠ [] →
      (drawFrames split idx es cur fs).framesLeft = 0 := by
  refine drawFrames.induct split
    (fun idx es cur fs =>
      (drawFrames split idx es cur fs).leftover ≠ [] →
        (drawFrames split idx es cur fs).framesLeft = 0)
    ?_ ?_ idx es cur fs
  · intro idx es cur fs l fl hstep h
    rw [drawFrames_halt hstep] at h ⊢
    rcases flowStep_halt_char hstep with rfl | rfl
    · simp at h
    · rfl
  · intro idx es cur fs p idx1 es1 cur1 fs1 hstep ih h
    rw [drawFrames_step hstep] at h ⊢
    exact ih h

/-- Claim C2: with split mode enabled, a head paragraph that fails to fit
the current region is split; when the split yields a fragment pair the
fitting fragment is committed to the current region, the residual becomes
the new queue head, and the engine continues from the next region (conjunct
1), failing if no region remains (conjunct 2); when no usable split exists
the original block is re-queued undrawn and the engine continues from the
next region (conjunct 3), failing if none remains (conjunct 4); and the run
ends in the failure state exactly when the pending queue is non-empty and no
regions remain: a failed result always has exhausted the regions (conjunct
5), and an emptied queue always ends in the success state (conjunct 6). -/
theorem c2_flow_engine_split :
    (∀ (idx : Nat) (lines : List Nat) (rest : List Block) (cur g : Region)
        (gs : List Region) (frag resid : Block),
      regionAdd cur (.para lines) = none →
      regionSplit cur (.para lines) = some (frag, resid) →
      drawFrames true idx (.para lines :: rest) cur (g :: gs) =
        (drawFrames true (idx + 1) (resid :: rest) g gs).consPlaced
          [(idx, frag)]) ∧
      (∀ (idx : Nat) (lines : List Nat) (rest : List Block) (cur : Region)
          (frag resid : Block),
        regionAdd cur (.para lines) = none →
        regionSplit cur (.para lines) = some (frag, resid) →
        drawFrames true idx (.para lines :: rest) cur [] =
          ⟨[(idx, frag)], resid :: rest, 0⟩) ∧
      (∀ (idx : Nat) (e : Block) (rest : List Block) (cur g : Region)
          (gs : List Region),
        e.isDivider = false →
        regionAdd cur e = none →
        regionSplit cur e = none →
        drawFrames true idx (e :: rest) cur (g :: gs) =
          drawFrames true (idx + 1) (e :: rest) g gs) ∧
      (∀ (idx : Nat) (e : Block) (rest : List Block) (cur : Region),
        e.isDivider = false →
        regionAdd cur e = none →
        regionSplit cur e = none →
        drawFrames true idx (e :: rest) cur [] = ⟨[], e :: rest, 0⟩) ∧
      (∀ (split : Bool) (idx : Nat) (es : List Block) (cur : Region)
          (fs : List Region),
        (drawFrames split idx es cur fs).leftover ≠ [] →
        (drawFrames split idx es cur fs).framesLeft = 0) ∧
      (∀ (split : Bool) (idx : Nat) (cur : Region) (fs : List Region),
        drawFrames split idx [] cur fs = ⟨[], [], fs.length⟩) := by
  have hcommit : ∀ (idx : Nat) (lines : List Nat) (rest : List Block)
      (cur : Region) (fs : List Region) (frag resid : Block),
      regionAdd cur (.para lines) = none →
      regionSplit cur (.para lines) = some (frag, resid) →
      ∃ k, k = splitLen cur.remaining lines ∧
        frag = .para (lines.take k) ∧ resid = .para (lines.drop k) ∧
        cur.remaining < lines.sum := by
    intro idx lines rest cur fs frag resid hadd hsplit
    have hsum : cur.remaining < lines.sum := by
      rw [regionAdd] at hadd
      by_cases hle : wrapIn cur (.para lines) ≤ cur.remaining
      · rw [if_pos hle] at hadd
        cases hadd
      · rw [wrapIn] at hle
        omega
    refine ⟨splitLen cur.remaining lines, rfl, ?_, ?_, hsum⟩ <;>
      · rw [regionSplit] at hsplit
        by_cases hk : splitLen cur.remaining lines = 0
        · simp [hk] at hsplit
        · simp only [hk, if_false, Option.some.injEq, Prod.mk.injEq] at hsplit
          simp [← hsplit.1, ← hsplit.2]
  have hstep1 : ∀ (idx : Nat) (lines : List Nat) (rest : List Block)
      (cur : Region) (fs : List Region) (frag resid : Block),
      regionAdd cur (.para lines) = none →
      regionSplit cur (.para lines) = some (frag, resid) →
      drawFrames true idx (.para lines :: rest) cur fs =
        (drawFrames true idx (resid :: rest)
            ⟨cur.remaining - (lines.take (splitLen cur.remaining lines)).sum,
              false⟩ fs).consPlaced [(idx, frag)] := by
    intro idx lines rest cur fs frag resid hadd hsplit
    obtain ⟨k, hk, rfl, rfl, hsum⟩ :=
      hcommit idx lines rest cur fs frag resid hadd hsplit
    subst hk
    have haddfrag : regionAdd cur (.para (lines.take (splitLen cur.remaining lines))) =
        some ⟨cur.remaining - (lines.take (splitLen cur.remaining lines)).sum,
          false⟩ := by
      rw [regionAdd, wrapIn, if_pos (sum_take_splitLen_le lines cur.remaining)]
    have hstep : flowStep true idx
        (.para lines :: rest) cur fs =
        .step [(idx, .para (lines.take (splitLen cur.remaining lines)))] idx
          (.para (lines.drop (splitLen cur.remaining lines)) :: rest)
          ⟨cur.remaining - (lines.take (splitLen cur.remaining lines)).sum,
            false⟩ fs := by
      simp only [flowStep]
      rw [addStep.eq_def, hadd]
      simp only [if_true, hsplit, haddfrag, Option.isSome_some, Option.getD_some,
        if_true]
      rfl
    rw [drawFrames_step hstep]
  have hresfail : ∀ (lines : List Nat) (cur : Region),
      cur.remaining < lines.sum →
      regionAdd
        ⟨cur.remaining - (lines.take (splitLen cur.remaining lines)).sum, false⟩
        (.para (lines.drop (splitLen cur.remaining lines))) = none ∧
      regionSplit
        ⟨cur.remaining - (lines.take (splitLen cur.remaining lines)).sum, false⟩
        (.para (lines.drop (splitLen cur.remaining lines))) = none := by
    intro lines cur hsum
    have hgt := sum_drop_splitLen_gt lines cur.remaining hsum
    have h0 := splitLen_drop_zero lines cur.remaining hsum
    constructor
    · rw [regionAdd, wrapIn]
      apply if_neg
      show ¬ (lines.drop (splitLen cur.remaining lines)).sum ≤
        cur.remaining - (lines.take (splitLen cur.remaining lines)).sum
      omega
    · rw [regionSplit]
      show (if splitLen (cur.remaining -
          (lines.take (splitLen cur.remaining lines)).sum)
          (lines.drop (splitLen cur.remaining lines)) = 0 then none else _) = none
      rw [if_pos h0]
  have hswitch : ∀ (idx : Nat) (e : Block) (rest : List Block) (cur : Region)
      (fs : List Region),
      e.isDivider = false →
      regionAdd cur e = none →
      regionSplit cur e = none →
      flowStep true idx (e :: rest) cur fs =
        (match fs with
         | [] => .halt (e :: rest) 0
         | g :: gs => .step [] (idx + 1) (e :: rest) g gs) := by
    intro idx e rest cur fs hdiv hadd hsplit
    match e with
    | .divider h0 => simp [Block.isDivider] at hdiv
    | .para lines =>
      simp only [flowStep]
      rw [addStep.eq_def, hadd]
      simp only [if_true, hsplit]
    | .fixed h0 =>
      simp only [flowStep]
      rw [addStep.eq_def, hadd]
      simp only [if_true, hsplit]
  refine ⟨?_, ?_, ?_, ?_, drawFrames_fail_framesLeft, ?_⟩
  · intro idx lines rest cur g gs frag resid hadd hsplit
    rw [hstep1 idx lines rest cur (g :: gs) frag resid hadd hsplit]
    obtain ⟨k, hk, rfl, rfl, hsum⟩ :=
      hcommit idx lines rest cur (g :: gs) frag resid hadd hsplit
    subst hk
    obtain ⟨hres1, hres2⟩ := hresfail lines cur hsum
    have hsw := hswitch idx (.para (lines.drop (splitLen cur.remaining lines)))
      rest ⟨cur.remaining - (lines.take (splitLen cur.remaining lines)).sum,
        false⟩ (g :: gs) rfl hres1 hres2
    rw [drawFrames_step hsw, consPlaced_nil]
  · intro idx lines rest cur frag resid hadd hsplit
    rw [hstep1 idx lines rest cur [] frag resid hadd hsplit]
    obtain ⟨k, hk, rfl, rfl, hsum⟩ :=
      hcommit idx lines rest cur [] frag resid hadd hsplit
    subst hk
    obtain ⟨hres1, hres2⟩ := hresfail lines cur hsum
    have hsw := hswitch idx (.para (lines.drop (splitLen cur.remaining lines)))
      rest ⟨cur.remaining - (lines.take (splitLen cur.remaining lines)).sum,
        false⟩ [] rfl hres1 hres2
    rw [drawFrames_halt hsw]
    rfl
  · intro idx e rest cur g gs hdiv hadd hsplit
    rw [drawFrames_step (hswitch idx e rest cur (g :: gs) hdiv hadd hsplit),
      consPlaced_nil]
  · intro idx e rest cur hdiv hadd hsplit
    rw [drawFrames_halt (hswitch idx e rest cur [] hdiv hadd hsplit)]
  · intro split idx cur fs
    apply drawFrames_halt
    rw [flowStep]

/-- Witness for C2: a paragraph of two lines meets a region able to hold
only its first line; the fragment is committed and the residual moves to the
next region. -/
theorem c2_flow_engine_split_witness :
    drawFrames true 0 [.para [2, 2]] ⟨3, true⟩ [⟨10, true⟩] =
      (drawFrames true 1 [.para [2]] ⟨10, true⟩ []).consPlaced
        [(0, .para [2])] :=
  c2_flow_engine_split.1 0 [2, 2] [] ⟨3, true⟩ ⟨10, true⟩ [] (.para [2])
    (.para [2]) (by decide) (by decide)

end DnD
